import Mathlib

/-!
Verification of the sparrow columnar array library core against its
specification.  The C++ classes are shallowly embedded as Lean structures and
functions: the packed bit storage of the validity bitmap becomes a list of
booleans, raw pointers become indices into an explicit buffer store or
functions from positions to values, machine integers become natural numbers
with explicit reduction modulo 2^64 where overflow matters, and functions that
throw exceptions return Except values.
-/

namespace sparrow

/-- Embedding of sparrow::dynamic_bitset (dynamic_bitset.hpp part of
any_data_utils.hpp): a dynamic sequence of bits with the cached null count
(the count of zero bits).  The packed uint8 block storage of the C++ class is
abstracted to a list of booleans; m_null_count is the cached count kept by
dynamic_bitset_base. -/
structure dynamic_bitset where
  bits : List Bool
  m_null_count : Nat
deriving DecidableEq

/-- size(): the number of bits stored. -/
def dynamic_bitset.size (bs : dynamic_bitset) : Nat := bs.bits.length

/-- null_count(): the cached count of zero bits, returned in O(1). -/
def dynamic_bitset.null_count (bs : dynamic_bitset) : Nat := bs.m_null_count

/-- Embedding of the constructor dynamic_bitset(size_type n, value_type v):
storage filled with the value, null count 0 for an all-true bitmap and n for
an all-false one. -/
def dynamic_bitset.ofSize (n : Nat) (value : Bool) : dynamic_bitset :=
  ⟨List.replicate n value, if value then 0 else n⟩

/-- Modelled from the spec: dynamic_bitset_base::set is declared but its body
is not under src/.  Per spec section 4.2, set(i, b) writes bit i and adjusts
the cached null count by the delta between the old and the new bit.  An
out-of-range index is modelled as a no-op (a debug assertion in the C++). -/
def dynamic_bitset.set (bs : dynamic_bitset) (i : Nat) (b : Bool) : dynamic_bitset :=
  match bs.bits[i]? with
  | none => bs
  | some old =>
    ⟨bs.bits.set i b,
      if old = b then bs.m_null_count
      else if b then bs.m_null_count - 1 else bs.m_null_count + 1⟩

/-- The loop shared by the range constructor of dynamic_bitset and by the
boolean overload of ensure_validity_bitmap: walk the range keeping an index,
clearing the bit of every position whose entry is false. -/
def mark_false_loop : dynamic_bitset → Nat → List Bool → dynamic_bitset
  | bs, _, [] => bs
  | bs, i, v :: rest => mark_false_loop (if v then bs else bs.set i false) (i + 1) rest

/-- Embedding of the dynamic_bitset range constructor (any_data_utils.hpp):
delegate to dynamic_bitset(size(r), true), then clear the bit of every false
entry of the range. -/
def dynamic_bitset.ofRange (r : List Bool) : dynamic_bitset :=
  mark_false_loop (dynamic_bitset.ofSize r.length true) 0 r

/-- validity_bitmap is dynamic_bitset over uint8 blocks. -/
abbrev validity_bitmap := dynamic_bitset

/-- Embedding of ensure_validity_bitmap(std::size_t, const validity_bitmap&):
an empty bitmap is materialized to an all-valid bitmap of the requested size,
a non-empty one is returned unchanged.  The rvalue overload resizes an empty
bitmap in place with fill value true, producing the same result. -/
def ensure_validity_bitmap (size : Nat) (bitmap : validity_bitmap) : validity_bitmap :=
  if bitmap.size = 0 then dynamic_bitset.ofSize size true else bitmap

/-- Embedding of the boolean-range overload of ensure_validity_bitmap: start
from an all-true bitmap of the requested size and clear the bit of every
false entry of the range. -/
def ensure_validity_bitmap_bools (size : Nat) (range : List Bool) : validity_bitmap :=
  mark_false_loop (dynamic_bitset.ofSize size true) 0 range

/-- The loop of the unsigned-integer overload of ensure_validity_bitmap:
clear the bit of every position whose marker is zero. -/
def mark_zero_loop : dynamic_bitset → Nat → List Nat → dynamic_bitset
  | bs, _, [] => bs
  | bs, i, v :: rest => mark_zero_loop (if v = 0 then bs.set i false else bs) (i + 1) rest

/-- Embedding of the unsigned-integer-range overload of
ensure_validity_bitmap: zero markers denote nulls. -/
def ensure_validity_bitmap_indices (size : Nat) (range : List Nat) : validity_bitmap :=
  mark_zero_loop (dynamic_bitset.ofSize size true) 0 range

/-- Applying a sequence of set(i, b) calls in order. -/
def apply_sets (bs : dynamic_bitset) (ops : List (Nat × Bool)) : dynamic_bitset :=
  ops.foldl (fun acc op => acc.set op.1 op.2) bs

/-- The maintained-count invariant of the bitmap: the cached null count equals
the number of false bits in the storage. -/
def bitset_inv (bs : dynamic_bitset) : Prop :=
  bs.m_null_count = bs.bits.count false

lemma count_false_add_count_true (l : List Bool) :
    l.count false + l.count true = l.length := by
  induction l with
  | nil => rfl
  | cons x xs ih =>
    cases x <;> simp [List.count_cons] <;> omega

lemma count_false_set (l : List Bool) (i : Nat) (b : Bool) (h : i < l.length) :
    (l.set i b).count false + (if l.getD i false = false then 1 else 0)
      = l.count false + (if b = false then 1 else 0) := by
  induction l generalizing i with
  | nil => simp at h
  | cons x xs ih =>
    cases i with
    | zero =>
      cases x <;> cases b <;> simp [List.count_cons]
    | succ k =>
      have hk : k < xs.length := by simpa using h
      have := ih k hk
      simp only [List.set_cons_succ, List.count_cons, List.getD_cons_succ]
      omega

lemma count_false_pos_of_getD_false (l : List Bool) (i : Nat) (h : i < l.length)
    (hv : l.getD i false = false) : 0 < l.count false := by
  have hm : false ∈ l := by
    rw [← hv, List.getD_eq_getElem l false h]
    exact List.getElem_mem h
  exact List.count_pos_iff.mpr hm

lemma set_preserves_inv (bs : dynamic_bitset) (i : Nat) (b : Bool)
    (h : bitset_inv bs) : bitset_inv (bs.set i b) := by
  unfold bitset_inv at *
  unfold dynamic_bitset.set
  cases hg : bs.bits[i]? with
  | none => exact h
  | some old =>
    have hi : i < bs.bits.length := by
      by_contra hn
      push_neg at hn
      rw [List.getElem?_eq_none hn] at hg
      cases hg
    have hold : bs.bits.getD i false = old := by
      rw [List.getD_eq_getElem bs.bits false hi]
      have h2 : bs.bits[i]? = some bs.bits[i] := List.getElem?_eq_getElem hi
      rw [h2] at hg
      exact Option.some.inj hg
    have hset := count_false_set bs.bits i b hi
    rw [hold] at hset
    have hpos : old = false → 0 < bs.bits.count false := fun hf =>
      count_false_pos_of_getD_false bs.bits i hi (hold.trans hf)
    by_cases hob : old = b
    · subst hob
      simp
      omega
    · cases old <;> cases b <;> simp_all <;> omega

lemma ofSize_inv (n : Nat) (v : Bool) : bitset_inv (dynamic_bitset.ofSize n v) := by
  unfold bitset_inv dynamic_bitset.ofSize
  cases v <;> simp [List.count_replicate]

lemma mark_false_loop_inv (r : List Bool) (bs : dynamic_bitset) (i : Nat)
    (h : bitset_inv bs) : bitset_inv (mark_false_loop bs i r) := by
  induction r generalizing bs i with
  | nil => simpa [mark_false_loop] using h
  | cons v rest ih =>
    unfold mark_false_loop
    apply ih
    cases v
    · simpa using set_preserves_inv bs i false h
    · simpa using h

lemma apply_sets_inv (ops : List (Nat × Bool)) (bs : dynamic_bitset)
    (h : bitset_inv bs) : bitset_inv (apply_sets bs ops) := by
  induction ops generalizing bs with
  | nil => simpa [apply_sets] using h
  | cons op rest ih =>
    unfold apply_sets at *
    simp only [List.foldl_cons]
    exact ih _ (set_preserves_inv bs op.1 op.2 h)

lemma set_append_cons (pre : List Bool) (x y : Bool) (s : List Bool) :
    (pre ++ x :: s).set pre.length y = pre ++ y :: s := by
  induction pre with
  | nil => rfl
  | cons p ps ih => simp [List.set_cons_succ, ih]

lemma mark_false_loop_bits (r : List Bool) (bs : dynamic_bitset) (pre : List Bool)
    (h : bs.bits = pre ++ List.replicate r.length true) :
    (mark_false_loop bs pre.length r).bits = pre ++ r := by
  induction r generalizing bs pre with
  | nil => simpa [mark_false_loop] using h
  | cons v rest ih =>
    unfold mark_false_loop
    simp only [List.length_cons] at h
    cases v with
    | true =>
      have hlen : (pre ++ [true]).length = pre.length + 1 := by simp
      have hbits : bs.bits = (pre ++ [true]) ++ List.replicate rest.length true := by
        rw [h, List.replicate_succ]
        simp
      have := ih bs (pre ++ [true]) hbits
      rw [hlen] at this
      simpa using this
    | false =>
      have hget : bs.bits[pre.length]? = some true := by
        rw [h, List.replicate_succ]
        rw [List.getElem?_append_right (by simp)]
        simp
      have hsetbits : (bs.set pre.length false).bits
          = (pre ++ [false]) ++ List.replicate rest.length true := by
        unfold dynamic_bitset.set
        rw [hget]
        simp only
        rw [h, List.replicate_succ, set_append_cons]
        simp
      have hlen : (pre ++ [false]).length = pre.length + 1 := by simp
      have := ih (bs.set pre.length false) (pre ++ [false]) hsetbits
      rw [hlen] at this
      simpa using this

lemma ofRange_bits (r : List Bool) : (dynamic_bitset.ofRange r).bits = r := by
  have := mark_false_loop_bits r (dynamic_bitset.ofSize r.length true) []
    (by simp [dynamic_bitset.ofSize])
  simpa using this

/-- C3: for a validity bitmap constructed from any boolean sequence bs, the
cached null count equals the number of false entries of bs, and after any
sequence of set(i, b) calls the invariant null_count() == size() -
popcount(bits) still holds: the incrementally maintained count always matches
recomputation by scan. -/
theorem dynamic_bitset_null_count_invariant (bs : List Bool) (ops : List (Nat × Bool)) :
    (dynamic_bitset.ofRange bs).null_count = bs.count false
    ∧ (apply_sets (dynamic_bitset.ofRange bs) ops).null_count
        = (apply_sets (dynamic_bitset.ofRange bs) ops).size
          - (apply_sets (dynamic_bitset.ofRange bs) ops).bits.count true := by
  have hinv0 : bitset_inv (dynamic_bitset.ofRange bs) :=
    mark_false_loop_inv bs _ 0 (ofSize_inv bs.length true)
  constructor
  · have hb := ofRange_bits bs
    unfold bitset_inv at hinv0
    unfold dynamic_bitset.null_count
    rw [hinv0, hb]
  · have hinv : bitset_inv (apply_sets (dynamic_bitset.ofRange bs) ops) :=
      apply_sets_inv ops _ hinv0
    unfold bitset_inv at hinv
    unfold dynamic_bitset.null_count dynamic_bitset.size
    have := count_false_add_count_true (apply_sets (dynamic_bitset.ofRange bs) ops).bits
    omega

/-- C6: normalizing an empty validity bitmap through ensure_validity_bitmap
materializes a bitmap of the requested length whose bits are all true and
whose null count is 0: absence of a bitmap means all elements valid. -/
theorem ensure_validity_bitmap_empty (n : Nat) (b : validity_bitmap)
    (h : b.size = 0) :
    (ensure_validity_bitmap n b).size = n
    ∧ (∀ i, i < n → (ensure_validity_bitmap n b).bits.getD i false = true)
    ∧ (ensure_validity_bitmap n b).null_count = 0 := by
  unfold ensure_validity_bitmap
  rw [if_pos h]
  refine ⟨by simp [dynamic_bitset.size, dynamic_bitset.ofSize], ?_, by
    simp [dynamic_bitset.null_count, dynamic_bitset.ofSize]⟩
  intro i hi
  simp [dynamic_bitset.ofSize, List.getD_eq_getElem?_getD, List.getElem?_replicate, hi]

/-- Witness for C6 at n = 3 and the empty bitmap. -/
theorem ensure_validity_bitmap_empty_witness :
    (ensure_validity_bitmap 3 ⟨[], 0⟩).size = 3
    ∧ (∀ i, i < 3 → (ensure_validity_bitmap 3 ⟨[], 0⟩).bits.getD i false = true)
    ∧ (ensure_validity_bitmap 3 ⟨[], 0⟩).null_count = 0 :=
  ensure_validity_bitmap_empty 3 ⟨[], 0⟩ (by decide)

/-- C9: a non-empty supplied bitmap always takes precedence:
ensure_validity_bitmap returns it unchanged even when its size differs from
the requested size, and no size-consistency check is performed. -/
theorem ensure_validity_bitmap_nonempty (n : Nat) (b : validity_bitmap)
    (h : 0 < b.size) : ensure_validity_bitmap n b = b := by
  unfold ensure_validity_bitmap
  rw [if_neg (by omega)]

/-- Witness for C9: a bitmap of size 2 passed with requested size 5 comes back
identical, bits and null count untouched. -/
theorem ensure_validity_bitmap_nonempty_witness :
    ensure_validity_bitmap 5 ⟨[true, false], 1⟩ = ⟨[true, false], 1⟩ :=
  ensure_validity_bitmap_nonempty 5 ⟨[true, false], 1⟩ (by decide)

lemma mark_zero_loop_map (r : List Bool) (bs : dynamic_bitset) (i : Nat) :
    mark_zero_loop bs i (r.map fun b => if b then 1 else 0)
      = mark_false_loop bs i r := by
  induction r generalizing bs i with
  | nil => rfl
  | cons v rest ih =>
    cases v <;> simp [mark_zero_loop, mark_false_loop, ih]

/-- C8: building a validity bitmap from a range of booleans and building it
from the corresponding unsigned zero-means-null markers (1 for true, 0 for
false) normalize to the same representation: same bits and same cached null
count. -/
theorem ensure_validity_bitmap_bools_indices_agree (n : Nat) (bs : List Bool)
    (h : bs.length = n) :
    ensure_validity_bitmap_bools n bs
      = ensure_validity_bitmap_indices n (bs.map fun b => if b then 1 else 0) := by
  unfold ensure_validity_bitmap_bools ensure_validity_bitmap_indices
  rw [mark_zero_loop_map]

/-- Witness for C8 at n = 3 and bs = [true, false, true]. -/
theorem ensure_validity_bitmap_bools_indices_agree_witness :
    ensure_validity_bitmap_bools 3 [true, false, true]
      = ensure_validity_bitmap_indices 3 [1, 0, 1] := by
  exact ensure_validity_bitmap_bools_indices_agree 3 [true, false, true] (by decide)

/-- Modelled from the spec: detail::offset_buffer_from_sizes, called by
list_array_impl::offset_from_sizes, is declared in layout_utils.hpp which is
not under src/.  Spec section 4.3 defines building offsets from per-element
sizes as the prefix sum offsets[0] = 0, offsets[k+1] = offsets[k] + sizes[k].
The accumulator is the running sum. -/
def offset_buffer_from_sizes : Nat → List Nat → List Nat
  | acc, [] => [acc]
  | acc, s :: rest => acc :: offset_buffer_from_sizes (acc + s) rest

/-- Embedding of list_array_impl::offset_from_sizes: delegate to
detail::offset_buffer_from_sizes starting from zero. -/
def offset_from_sizes (sizes : List Nat) : List Nat :=
  offset_buffer_from_sizes 0 sizes

lemma offset_buffer_from_sizes_length (acc : Nat) (l : List Nat) :
    (offset_buffer_from_sizes acc l).length = l.length + 1 := by
  induction l generalizing acc with
  | nil => rfl
  | cons s rest ih => simp [offset_buffer_from_sizes, ih]

lemma offset_buffer_from_sizes_head (acc : Nat) (l : List Nat) :
    (offset_buffer_from_sizes acc l).getD 0 0 = acc := by
  cases l <;> rfl

lemma offset_buffer_from_sizes_step (l : List Nat) (acc : Nat) (k : Nat)
    (h : k < l.length) :
    (offset_buffer_from_sizes acc l).getD (k + 1) 0
      = (offset_buffer_from_sizes acc l).getD k 0 + l.getD k 0 := by
  induction l generalizing acc k with
  | nil => simp at h
  | cons s rest ih =>
    cases k with
    | zero =>
      simp only [offset_buffer_from_sizes, List.getD_cons_succ, List.getD_cons_zero]
      rw [offset_buffer_from_sizes_head]
    | succ m =>
      have hm : m < rest.length := by simpa using h
      simp only [offset_buffer_from_sizes, List.getD_cons_succ]
      exact ih (acc + s) m hm

/-- C2: for every sequence of sizes the offsets built by offset_from_sizes
have length one more than the sizes, start at zero, and each consecutive
difference is the corresponding size (stated both as a difference and as the
sum form that shows there is no truncation). -/
theorem offset_from_sizes_spec (sizes : List Nat) :
    (offset_from_sizes sizes).length = sizes.length + 1
    ∧ (offset_from_sizes sizes).getD 0 0 = 0
    ∧ ∀ k, k < sizes.length →
        (offset_from_sizes sizes).getD (k + 1) 0
            = (offset_from_sizes sizes).getD k 0 + sizes.getD k 0
        ∧ (offset_from_sizes sizes).getD (k + 1) 0
              - (offset_from_sizes sizes).getD k 0 = sizes.getD k 0 := by
  unfold offset_from_sizes
  refine ⟨offset_buffer_from_sizes_length 0 sizes,
    offset_buffer_from_sizes_head 0 sizes, ?_⟩
  intro k hk
  have := offset_buffer_from_sizes_step sizes 0 k hk
  exact ⟨this, by omega⟩

/-- Witness for C2 at sizes = [1, 2, 3]: offsets are [0, 1, 3, 6]. -/
theorem offset_from_sizes_spec_witness :
    (offset_from_sizes [1, 2, 3]).length = 4
    ∧ (offset_from_sizes [1, 2, 3]).getD 0 0 = 0
    ∧ (offset_from_sizes [1, 2, 3]).getD 2 0
          - (offset_from_sizes [1, 2, 3]).getD 1 0 = 2 :=
  ⟨(offset_from_sizes_spec [1, 2, 3]).1,
   (offset_from_sizes_spec [1, 2, 3]).2.1,
   ((offset_from_sizes_spec [1, 2, 3]).2.2 1 (by decide)).2⟩

/-- The scalar element kinds the factory can select (array_factory.cpp). -/
inductive primitive_kind
  | bool_prim
  | int8
  | uint8
  | int16
  | uint16
  | int32
  | uint32
  | int64
  | uint64
  | float32
  | float64
deriving DecidableEq

/-- The concrete layout classes a factory call could name.  The view and
fixed-size variants exist in the layout hierarchy (list_array.hpp) and are
listed here so that claims about them are statable. -/
inductive layout_kind
  | null_array
  | primitive_array (t : primitive_kind)
  | list_array
  | big_list_array
  | list_view_array
  | big_list_view_array
  | fixed_sized_list_array
deriving DecidableEq

/-- The exception thrown by array_factory for an unknown format tag. -/
inductive factory_error
  | UnsupportedFormat
deriving DecidableEq

/-- The switch of array_factory over a single-character format code. -/
def single_format_dispatch (c : Char) : Except factory_error layout_kind :=
  if c = 'n' then .ok .null_array
  else if c = 'b' then .ok (.primitive_array .bool_prim)
  else if c = 'c' then .ok (.primitive_array .int8)
  else if c = 'C' then .ok (.primitive_array .uint8)
  else if c = 's' then .ok (.primitive_array .int16)
  else if c = 'S' then .ok (.primitive_array .uint16)
  else if c = 'i' then .ok (.primitive_array .int32)
  else if c = 'I' then .ok (.primitive_array .uint32)
  else if c = 'l' then .ok (.primitive_array .int64)
  else if c = 'L' then .ok (.primitive_array .uint64)
  else if c = 'f' then .ok (.primitive_array .float32)
  else if c = 'd' then .ok (.primitive_array .float64)
  else .error .UnsupportedFormat

/-- Embedding of array_factory (src_v01/array_factory.cpp): the format string
is taken as its list of characters; a one-character format goes through the
scalar switch, "+l" and "+L" select the list layouts, and everything else
throws the unsupported-format error. -/
def array_factory (format : List Char) : Except factory_error layout_kind :=
  if format.length = 1 then single_format_dispatch (format.getD 0 ' ')
  else if format = ['+', 'l'] then .ok .list_array
  else if format = ['+', 'L'] then .ok .big_list_array
  else .error .UnsupportedFormat

/-- The formats array_factory accepts, paired with the layout each selects. -/
def factory_formats : List (List Char) :=
  [['n'], ['b'], ['c'], ['C'], ['s'], ['S'], ['i'], ['I'], ['l'], ['L'],
   ['f'], ['d'], ['+', 'l'], ['+', 'L']]

/-- C1 counterexample: the claim says the list-view format "+vl" selects the
list-view layout, but array_factory rejects it with UnsupportedFormat (the
same holds for "+vL" and "+w:3"). -/
theorem array_factory_list_view_counterexample :
    array_factory ['+', 'v', 'l'] ≠ Except.ok layout_kind.list_view_array
    ∧ array_factory ['+', 'v', 'l'] = Except.error factory_error.UnsupportedFormat
    ∧ array_factory ['+', 'w', ':', '3']
        = Except.error factory_error.UnsupportedFormat := by
  refine ⟨?_, by rfl, by rfl⟩
  intro h
  cases h

/-- C1 amended: array_factory maps each of the twelve single-character codes
to its scalar layout ("i" to the 32-bit signed integer primitive layout, "n"
to the null layout), "+l" to list_array and "+L" to big_list_array, and fails
with UnsupportedFormat for every other format, including the list-view and
fixed-size-list tags "+vl", "+vL" and "+w:N". -/
theorem array_factory_dispatch :
    (∀ f : List Char, f ∉ factory_formats
        → array_factory f = Except.error factory_error.UnsupportedFormat)
    ∧ array_factory ['n'] = Except.ok layout_kind.null_array
    ∧ array_factory ['b'] = Except.ok (layout_kind.primitive_array .bool_prim)
    ∧ array_factory ['c'] = Except.ok (layout_kind.primitive_array .int8)
    ∧ array_factory ['C'] = Except.ok (layout_kind.primitive_array .uint8)
    ∧ array_factory ['s'] = Except.ok (layout_kind.primitive_array .int16)
    ∧ array_factory ['S'] = Except.ok (layout_kind.primitive_array .uint16)
    ∧ array_factory ['i'] = Except.ok (layout_kind.primitive_array .int32)
    ∧ array_factory ['I'] = Except.ok (layout_kind.primitive_array .uint32)
    ∧ array_factory ['l'] = Except.ok (layout_kind.primitive_array .int64)
    ∧ array_factory ['L'] = Except.ok (layout_kind.primitive_array .uint64)
    ∧ array_factory ['f'] = Except.ok (layout_kind.primitive_array .float32)
    ∧ array_factory ['d'] = Except.ok (layout_kind.primitive_array .float64)
    ∧ array_factory ['+', 'l'] = Except.ok layout_kind.list_array
    ∧ array_factory ['+', 'L'] = Except.ok layout_kind.big_list_array := by
  refine ⟨?_, rfl, rfl, rfl, rfl, rfl, rfl, rfl, rfl, rfl, rfl, rfl, rfl, rfl, rfl⟩
  intro f hf
  unfold array_factory
  by_cases h1 : f.length = 1
  · rw [if_pos h1]
    obtain ⟨c, hc⟩ := List.length_eq_one.mp h1
    subst hc
    have mem_single : ∀ x : Char, c = x → ([c] : List Char) = [x] := by
      intro x hx
      rw [hx]
    have hn : c ≠ 'n' := fun h => hf (by rw [mem_single 'n' h]; decide)
    have hb : c ≠ 'b' := fun h => hf (by rw [mem_single 'b' h]; decide)
    have hcc : c ≠ 'c' := fun h => hf (by rw [mem_single 'c' h]; decide)
    have hC : c ≠ 'C' := fun h => hf (by rw [mem_single 'C' h]; decide)
    have hs : c ≠ 's' := fun h => hf (by rw [mem_single 's' h]; decide)
    have hS : c ≠ 'S' := fun h => hf (by rw [mem_single 'S' h]; decide)
    have hi : c ≠ 'i' := fun h => hf (by rw [mem_single 'i' h]; decide)
    have hI : c ≠ 'I' := fun h => hf (by rw [mem_single 'I' h]; decide)
    have hl : c ≠ 'l' := fun h => hf (by rw [mem_single 'l' h]; decide)
    have hL : c ≠ 'L' := fun h => hf (by rw [mem_single 'L' h]; decide)
    have hfc : c ≠ 'f' := fun h => hf (by rw [mem_single 'f' h]; decide)
    have hd : c ≠ 'd' := fun h => hf (by rw [mem_single 'd' h]; decide)
    simp [single_format_dispatch, hn, hb, hcc, hC, hs, hS, hi, hI, hl, hL, hfc, hd]
  · rw [if_neg h1]
    have hpl : f ≠ ['+', 'l'] := fun h => hf (by rw [h]; decide)
    have hpL : f ≠ ['+', 'L'] := fun h => hf (by rw [h]; decide)
    rw [if_neg hpl, if_neg hpL]

/-- Witness for C1: the well-formed but unimplemented tag "+q" fails with
UnsupportedFormat, through the catch-all branch of the dispatch theorem. -/
theorem array_factory_dispatch_witness :
    array_factory ['+', 'q'] = Except.error factory_error.UnsupportedFormat :=
  array_factory_dispatch.1 ['+', 'q'] (by decide)

/-- The standard-library exceptions std::stoull can throw. -/
inductive std_error
  | invalid_argument
  | out_of_range
deriving DecidableEq

/-- Whitespace in the C locale, as skipped by strtoull. -/
def is_space_char (c : Char) : Bool :=
  c = ' ' || c = '\t' || c = '\n' || c = '\x0b' || c = '\x0c' || c = '\r'

/-- Value of a string of decimal digits. -/
def digits_to_nat (ds : List Char) : Nat :=
  ds.foldl (fun a c => a * 10 + (c.toNat - '0'.toNat)) 0

/-- The largest value an unsigned long long can hold. -/
def ULLONG_MAX : Nat := 2 ^ 64 - 1

/-- The text left after strtoull skips leading whitespace and one optional
sign character. -/
def after_sign (s : List Char) : List Char :=
  let t := s.dropWhile is_space_char
  if t.headD ' ' = '-' || t.headD ' ' = '+' then t.tail else t

/-- Whether the character strtoull finds after the leading whitespace is the
minus sign, which makes it negate the converted value modulo 2^64. -/
def sign_is_minus (s : List Char) : Bool :=
  (s.dropWhile is_space_char).headD ' ' = '-'

/-- Modelled from the C++ standard library semantics of std::stoull in base
10, called by fixed_sized_list_array::list_size_from_format: skip leading
whitespace, accept one optional sign, read the longest run of decimal digits.
No digits at all throws invalid_argument; a magnitude beyond unsigned long
long throws out_of_range; a leading minus sign negates the value modulo 2^64;
any trailing characters after the digit run are ignored. -/
def stoull (s : List Char) : Except std_error Nat :=
  let neg : Bool := sign_is_minus s
  let ds := (after_sign s).takeWhile Char.isDigit
  if ds.isEmpty then .error .invalid_argument
  else if ULLONG_MAX < digits_to_nat ds then .error .out_of_range
  else .ok (if neg then (2 ^ 64 - digits_to_nat ds % 2 ^ 64) % 2 ^ 64
            else digits_to_nat ds)

/-- Embedding of fixed_sized_list_array::list_size_from_format: assert that
the format has at least three characters, take the suffix after the first
three (the "+w:" prefix is not itself checked), and convert it with
std::stoull.  The fixed_sized_list_array constructor stores this value as
m_list_size, so the constructor fails exactly when this fails. -/
def list_size_from_format (format : List Char) : Except std_error Nat :=
  stoull (format.drop 3)

/-- C5 counterexample: the suffix "2x" is not a valid non-negative integer,
yet the conversion succeeds with value 2 because std::stoull ignores trailing
characters after the digit run; construction does not fail. -/
theorem list_size_from_format_counterexample :
    list_size_from_format ['+', 'w', ':', '2', 'x'] = Except.ok 2 := by rfl

lemma not_space_of_digit (c : Char) (h : c.isDigit = true) :
    is_space_char c = false := by
  unfold is_space_char
  by_cases h1 : c = ' '
  · subst h1; exact absurd h (by decide)
  by_cases h2 : c = '\t'
  · subst h2; exact absurd h (by decide)
  by_cases h3 : c = '\n'
  · subst h3; exact absurd h (by decide)
  by_cases h4 : c = '\x0b'
  · subst h4; exact absurd h (by decide)
  by_cases h5 : c = '\x0c'
  · subst h5; exact absurd h (by decide)
  by_cases h6 : c = '\r'
  · subst h6; exact absurd h (by decide)
  simp [h1, h2, h3, h4, h5, h6]

lemma not_minus_of_digit (c : Char) (h : c.isDigit = true) : c ≠ '-' := by
  intro h1
  subst h1
  exact absurd h (by decide)

lemma not_plus_of_digit (c : Char) (h : c.isDigit = true) : c ≠ '+' := by
  intro h1
  subst h1
  exact absurd h (by decide)

lemma takeWhile_append_all (p : Char → Bool) (l1 l2 : List Char)
    (h1 : ∀ c ∈ l1, p c = true) (h2 : l2.takeWhile p = []) :
    (l1 ++ l2).takeWhile p = l1 := by
  induction l1 with
  | nil => simpa using h2
  | cons a rest ih =>
    have ha : p a = true := h1 a (by simp)
    simp only [List.cons_append, List.takeWhile_cons, ha, if_true]
    rw [ih fun c hc => h1 c (by simp [hc])]

lemma drop3_after_tag (s : List Char) :
    (['+', 'w', ':'] ++ s).drop 3 = s := rfl

/-- C5 amended: construction fails exactly when std::stoull rejects the
suffix after "+w:": with invalid_argument (the realization of the spec's
InvalidFormat) when, after optional leading whitespace and one optional sign,
no decimal digit run follows, and with out_of_range when the digit run's
value exceeds ULLONG_MAX.  Otherwise construction succeeds with the digit
run's value, negated modulo 2^64 when the sign is '-', and any trailing
non-digit characters are ignored — so an invalid non-negative-integer suffix
with a digit-run value in range (like "2x") succeeds instead of failing.  The
first three parts form the complete case split over all suffixes; the fourth
states the trailing-junk success case structurally. -/
theorem list_size_from_format_amended :
    (∀ s : List Char, (after_sign s).takeWhile Char.isDigit = []
        → list_size_from_format (['+', 'w', ':'] ++ s)
            = Except.error std_error.invalid_argument)
    ∧ (∀ s : List Char, (after_sign s).takeWhile Char.isDigit ≠ []
        → ULLONG_MAX < digits_to_nat ((after_sign s).takeWhile Char.isDigit)
        → list_size_from_format (['+', 'w', ':'] ++ s)
            = Except.error std_error.out_of_range)
    ∧ (∀ s : List Char, (after_sign s).takeWhile Char.isDigit ≠ []
        → digits_to_nat ((after_sign s).takeWhile Char.isDigit) ≤ ULLONG_MAX
        → list_size_from_format (['+', 'w', ':'] ++ s)
            = Except.ok (if sign_is_minus s
                then (2 ^ 64
                    - digits_to_nat ((after_sign s).takeWhile Char.isDigit) % 2 ^ 64)
                  % 2 ^ 64
                else digits_to_nat ((after_sign s).takeWhile Char.isDigit)))
    ∧ (∀ ds rest : List Char, ds ≠ [] → (∀ c ∈ ds, c.isDigit = true)
        → rest.takeWhile Char.isDigit = []
        → digits_to_nat ds ≤ ULLONG_MAX
        → list_size_from_format (['+', 'w', ':'] ++ (ds ++ rest))
            = Except.ok (digits_to_nat ds)) := by
  have hemp_of_ne : ∀ s : List Char, (after_sign s).takeWhile Char.isDigit ≠ []
      → ((after_sign s).takeWhile Char.isDigit).isEmpty = false := by
    intro s hne
    cases hD : (after_sign s).takeWhile Char.isDigit with
    | nil => exact absurd hD hne
    | cons a l => rfl
  refine ⟨?_, ?_, ?_, ?_⟩
  · intro s h
    unfold list_size_from_format
    rw [drop3_after_tag]
    unfold stoull
    simp only [h]
    rfl
  · intro s hne hgt
    unfold list_size_from_format
    rw [drop3_after_tag]
    unfold stoull
    simp only [hemp_of_ne s hne]
    rw [if_neg (by simp)]
    rw [if_pos hgt]
  · intro s hne hle
    unfold list_size_from_format
    rw [drop3_after_tag]
    unfold stoull
    simp only [hemp_of_ne s hne]
    rw [if_neg (by simp)]
    rw [if_neg (by omega)]
  · intro ds rest hne hdig hrest hmax
    unfold list_size_from_format
    rw [drop3_after_tag]
    obtain ⟨d, ds2, hds⟩ : ∃ d ds2, ds = d :: ds2 := by
      cases ds with
      | nil => exact absurd rfl hne
      | cons d ds2 => exact ⟨d, ds2, rfl⟩
    subst hds
    have hd : d.isDigit = true := hdig d (by simp)
    have hdrop : ((d :: ds2) ++ rest).dropWhile is_space_char
        = (d :: ds2) ++ rest := by
      simp only [List.cons_append]
      rw [List.dropWhile_cons_of_neg (by simp [not_space_of_digit d hd])]
    have hafter : after_sign ((d :: ds2) ++ rest) = (d :: ds2) ++ rest := by
      unfold after_sign
      rw [hdrop]
      simp only [List.cons_append, List.headD_cons]
      rw [if_neg]
      simp [not_minus_of_digit d hd, not_plus_of_digit d hd]
    have htake : (after_sign ((d :: ds2) ++ rest)).takeWhile Char.isDigit
        = d :: ds2 := by
      rw [hafter]
      exact takeWhile_append_all Char.isDigit (d :: ds2) rest hdig hrest
    have hsign : sign_is_minus ((d :: ds2) ++ rest) = false := by
      unfold sign_is_minus
      rw [hdrop]
      simp only [List.cons_append, List.headD_cons]
      simp [not_minus_of_digit d hd]
    unfold stoull
    simp only [List.cons_append] at hdrop hafter htake hsign
    simp only [List.cons_append, htake, hsign]
    rw [if_neg (by simp)]
    rw [if_neg (by omega)]
    simp

/-- Witness for C5: "+w:x" fails with invalid_argument, the 2^64 suffix
"18446744073709551616x" overflows unsigned long long and fails with
out_of_range, "+w: 5" (whitespace then a digit) succeeds with 5, and the
invalid non-negative integer "+w:7x" succeeds with 7. -/
theorem list_size_from_format_amended_witness :
    list_size_from_format ['+', 'w', ':', 'x']
        = Except.error std_error.invalid_argument
    ∧ list_size_from_format
        ['+', 'w', ':', '1', '8', '4', '4', '6', '7', '4', '4', '0', '7',
         '3', '7', '0', '9', '5', '5', '1', '6', '1', '6', 'x']
        = Except.error std_error.out_of_range
    ∧ list_size_from_format ['+', 'w', ':', ' ', '5'] = Except.ok 5
    ∧ list_size_from_format ['+', 'w', ':', '7', 'x'] = Except.ok 7 :=
  ⟨list_size_from_format_amended.1 ['x'] (by decide),
   list_size_from_format_amended.2.1
     ['1', '8', '4', '4', '6', '7', '4', '4', '0', '7', '3', '7', '0', '9',
      '5', '5', '1', '6', '1', '6', 'x'] (by decide) (by decide),
   list_size_from_format_amended.2.2.1 [' ', '5'] (by decide) (by decide),
   list_size_from_format_amended.2.2.2 ['7'] ['x'] (by decide) (by decide)
     (by decide) (by decide)⟩

/-- Embedding of sparrow::list_value: a non-owning reference to the half-open
index range into the flat child layout.  The child layout pointer is an
abstract identifier. -/
structure list_value where
  flat_array : Nat
  index_begin : Nat
  index_end : Nat

/-- Embedding of the element-access data of list_array_impl (list_array.hpp):
the raw offsets pointer p_list_offsets is modelled as the function giving the
offset_type value it reads at each index (the typed view the pointer exposes
on the offsets buffer), the flat child handle as an identifier, and the
layout's logical length.  The BIG flag distinguishes list_array (32-bit
offsets) from big_list_array (64-bit offsets); element access is identical. -/
structure list_array_impl (BIG : Bool) where
  p_list_offsets : Nat → Nat
  p_flat_array : Nat
  length : Nat

/-- Embedding of list_array_impl::offset_range: read offsets i and i+1 from
the offsets pointer. -/
def list_array_impl.offset_range (a : list_array_impl BIG) (i : Nat) : Nat × Nat :=
  (a.p_list_offsets i, a.p_list_offsets (i + 1))

/-- Embedding of list_array_crtp_base::value: ask the derived class for its
offset range at i and wrap it with the flat child into a list_value. -/
def list_array_crtp_value (p_flat_array : Nat) (derived_offset_range : Nat → Nat × Nat)
    (i : Nat) : list_value :=
  ⟨p_flat_array, (derived_offset_range i).1, (derived_offset_range i).2⟩

/-- value(i) of list_array and big_list_array: the CRTP base combinator
instantiated with list_array_impl::offset_range. -/
def list_array_impl.value (a : list_array_impl BIG) (i : Nat) : list_value :=
  list_array_crtp_value a.p_flat_array a.offset_range i

/-- C4: for every list_array and big_list_array and every index i below
size(), value(i) is the list_value that references the flat child layout over
the half-open range from offsets[i] to offsets[i+1] read from the offsets
buffer. -/
theorem list_array_value_range (BIG : Bool) (a : list_array_impl BIG) (i : Nat)
    (h : i < a.length) :
    a.value i = ⟨a.p_flat_array, a.p_list_offsets i, a.p_list_offsets (i + 1)⟩ :=
  rfl

/-- Witness for C4: a small list array whose offsets are 0, 2, 2, 3 yields
value(1) referencing child range from 2 to 2. -/
theorem list_array_value_range_witness :
    (⟨fun k => [0, 2, 2, 3].getD k 0, 7, 3⟩ : list_array_impl false).value 1
      = ⟨7, 2, 2⟩ := by
  exact list_array_value_range false ⟨fun k => [0, 2, 2, 3].getD k 0, 7, 3⟩ 1
    (by decide)

/-- Embedding of sparrow::array_data as consumed by fixed_size_layout
(any_data_utils.hpp): the stored length and logical offset, the validity
bitmap as a list of booleans, and the first buffer as the function from a
position to the typed value the raw pointer reads there. -/
structure array_data (α : Type) where
  length : Nat
  offset : Nat
  bitmap : List Bool
  buffer0 : Nat → α

/-- Embedding of fixed_size_layout<T>::size: the logical offset is subtracted
from the stored length (the constructor asserts offset <= length). -/
def fixed_size_layout.size {α : Type} (d : array_data α) : Nat :=
  d.length - d.offset

/-- Embedding of fixed_size_layout<T>::value: read the first buffer at
position i + offset. -/
def fixed_size_layout.value {α : Type} (d : array_data α) (i : Nat) : α :=
  d.buffer0 (i + d.offset)

/-- Embedding of fixed_size_layout<T>::has_value: read the bitmap at
position i + offset. -/
def fixed_size_layout.has_value {α : Type} (d : array_data α) (i : Nat) : Bool :=
  d.bitmap.getD (i + d.offset) false

/-- Embedding of fixed_size_layout<T>::operator[]: a reference pairing the
value accessor with the validity accessor. -/
def fixed_size_layout.op_index {α : Type} (d : array_data α) (i : Nat) : α × Bool :=
  (fixed_size_layout.value d i, fixed_size_layout.has_value d i)

/-- C10: for a fixed_size_layout over array_data with offset at most length,
size() is length - offset (with no truncation: size + offset gives back the
stored length), and operator[] at i below size() reads the buffer value at
position i + offset. -/
theorem fixed_size_layout_size_value {α : Type} (d : array_data α)
    (h : d.offset ≤ d.length) (i : Nat) (hi : i < fixed_size_layout.size d) :
    fixed_size_layout.size d = d.length - d.offset
    ∧ fixed_size_layout.size d + d.offset = d.length
    ∧ (fixed_size_layout.op_index d i).1 = d.buffer0 (i + d.offset) :=
  ⟨rfl, by unfold fixed_size_layout.size; omega, rfl⟩

/-- Witness for C10: length 5, offset 2 gives size 3, and element 1 reads
buffer position 3. -/
theorem fixed_size_layout_size_value_witness :
    fixed_size_layout.size
        (⟨5, 2, [true, true, true, true, true], fun k => k * 10⟩ : array_data Nat) = 3
    ∧ fixed_size_layout.size
        (⟨5, 2, [true, true, true, true, true], fun k => k * 10⟩ : array_data Nat)
        + 2 = 5
    ∧ (fixed_size_layout.op_index
        (⟨5, 2, [true, true, true, true, true], fun k => k * 10⟩ : array_data Nat)
        1).1 = 30 := by
  exact fixed_size_layout_size_value
    (⟨5, 2, [true, true, true, true, true], fun k => k * 10⟩ : array_data Nat)
    (by decide) 1 (by decide)

/-- The memory the layouts point into: a store of buffers, each buffer a list
of words.  Validity words, offsets and child values are kept in separate
buffers as in the Arrow array descriptor. -/
abbrev buffer_store := List (List Nat)

/-- The buffer identities an arrow proxy of a list array owns: its validity
buffer, its offsets buffer, and the value buffer of its flat child. -/
structure arrow_proxy_mem where
  validity_id : Nat
  offsets_id : Nat
  values_id : Nat
  length : Nat
deriving DecidableEq

/-- Modelled from the spec: arrow_proxy's copy implementation is not under
src/; per spec section 3, copying a Layout deep-copies the Proxy and its
children, so the copy owns fresh buffers holding the same contents and never
aliases the source's buffers.  Fresh buffers are appended at the end of the
store. -/
def copy_proxy (S : buffer_store) (p : arrow_proxy_mem) :
    arrow_proxy_mem × buffer_store :=
  (⟨S.length, S.length + 1, S.length + 2, p.length⟩,
   S ++ [S.getD p.validity_id [], S.getD p.offsets_id [], S.getD p.values_id []])

/-- A list array as laid out in memory: its proxy and the buffer its raw
offsets pointer p_list_offsets points into. -/
structure list_array_mem where
  proxy : arrow_proxy_mem
  p_list_offsets : Nat
deriving DecidableEq

/-- Embedding of list_array_impl::make_list_offsets: the raw offsets pointer
is derived from the proxy's own offsets buffer. -/
def make_list_offsets_mem (p : arrow_proxy_mem) : Nat := p.offsets_id

/-- Embedding of the list_array_impl copy constructor: copy the base (which
deep-copies the proxy and rebuilds the flat child from the copied proxy),
then re-derive p_list_offsets from the freshly copied proxy rather than
copying the raw pointer. -/
def copy_list_array (S : buffer_store) (a : list_array_mem) :
    list_array_mem × buffer_store :=
  (⟨(copy_proxy S a.proxy).1, make_list_offsets_mem (copy_proxy S a.proxy).1⟩,
   (copy_proxy S a.proxy).2)

/-- Mutating one validity word through a layout writes into the validity
buffer its proxy owns. -/
def set_validity (S : buffer_store) (a : list_array_mem) (i : Nat) (v : Nat) :
    buffer_store :=
  S.set a.proxy.validity_id ((S.getD a.proxy.validity_id []).set i v)

/-- Mutating one child value through a layout writes into the value buffer
its proxy owns. -/
def set_value (S : buffer_store) (a : list_array_mem) (j : Nat) (v : Nat) :
    buffer_store :=
  S.set a.proxy.values_id ((S.getD a.proxy.values_id []).set j v)

/-- Everything observable about element i of a list layout: its validity word
and the slice of child values between offsets i and i+1 read through the raw
offsets pointer. -/
def observe_element (S : buffer_store) (a : list_array_mem) (i : Nat) :
    Nat × List Nat :=
  ((S.getD a.proxy.validity_id []).getD i 0,
   ((S.getD a.proxy.values_id []).drop ((S.getD a.p_list_offsets []).getD i 0)).take
     ((S.getD a.p_list_offsets []).getD (i + 1) 0
       - (S.getD a.p_list_offsets []).getD i 0))

/-- A layout is well formed in a store when every buffer it references exists
and its raw offsets pointer is derived from its own proxy. -/
def wf_mem (S : buffer_store) (a : list_array_mem) : Prop :=
  a.proxy.validity_id < S.length ∧ a.proxy.offsets_id < S.length
    ∧ a.proxy.values_id < S.length ∧ a.p_list_offsets = a.proxy.offsets_id

lemma getD_append_left {α : Type} (l1 l2 : List α) (i : Nat) (d : α)
    (h : i < l1.length) : (l1 ++ l2).getD i d = l1.getD i d := by
  rw [List.getD_eq_getElem?_getD, List.getD_eq_getElem?_getD,
    List.getElem?_append_left h]

lemma getD_set_ne {α : Type} (l : List α) (i j : Nat) (x : α) (d : α)
    (h : i ≠ j) : (l.set i x).getD j d = l.getD j d := by
  rw [List.getD_eq_getElem?_getD, List.getD_eq_getElem?_getD,
    List.getElem?_set_ne h]

/-- C7: copying a list layout leaves every element observed through the
original untouched by later mutation through the copy.  The copy re-derives
its raw offsets pointer from its own freshly deep-copied proxy, whose buffers
are all distinct from the original's, so writing a validity word or a child
value through the copy never changes what the original observes. -/
theorem list_array_copy_independent (S : buffer_store) (a : list_array_mem)
    (h : wf_mem S a) :
    ((copy_list_array S a).1.p_list_offsets
        = (copy_list_array S a).1.proxy.offsets_id
      ∧ (copy_list_array S a).1.proxy.offsets_id ≠ a.proxy.offsets_id
      ∧ (copy_list_array S a).1.proxy.validity_id ≠ a.proxy.validity_id
      ∧ (copy_list_array S a).1.proxy.values_id ≠ a.proxy.values_id)
    ∧ (∀ i, observe_element (copy_list_array S a).2 a i = observe_element S a i)
    ∧ (∀ i j v,
        observe_element
          (set_validity (copy_list_array S a).2 (copy_list_array S a).1 j v) a i
          = observe_element S a i)
    ∧ (∀ i j v,
        observe_element
          (set_value (copy_list_array S a).2 (copy_list_array S a).1 j v) a i
          = observe_element S a i) := by
  obtain ⟨hv, ho, hval, hptr⟩ := h
  have hframe : ∀ id, id < S.length
      → ((copy_list_array S a).2).getD id [] = S.getD id [] := by
    intro id hid
    unfold copy_list_array copy_proxy
    exact getD_append_left S _ id [] hid
  have hobs : ∀ S2 : buffer_store,
      (S2.getD a.proxy.validity_id [] = S.getD a.proxy.validity_id [])
      → (S2.getD a.proxy.values_id [] = S.getD a.proxy.values_id [])
      → (S2.getD a.p_list_offsets [] = S.getD a.p_list_offsets [])
      → ∀ i, observe_element S2 a i = observe_element S a i := by
    intro S2 h1 h2 h3 i
    unfold observe_element
    rw [h1, h2, h3]
  refine ⟨⟨rfl, by simp [copy_list_array, copy_proxy]; omega,
      by simp [copy_list_array, copy_proxy]; omega,
      by simp [copy_list_array, copy_proxy]; omega⟩, ?_, ?_, ?_⟩
  · exact hobs _ (hframe _ hv) (hframe _ hval) (hframe _ (hptr ▸ ho))
  · intro i j v
    have hset : ∀ id, id < S.length
        → (set_validity (copy_list_array S a).2 (copy_list_array S a).1 j v).getD
            id [] = S.getD id [] := by
      intro id hid
      unfold set_validity
      rw [getD_set_ne]
      · exact hframe id hid
      · show (copy_list_array S a).1.proxy.validity_id ≠ id
        simp only [copy_list_array, copy_proxy]
        omega
    exact hobs _ (hset _ hv) (hset _ hval) (hset _ (hptr ▸ ho)) i
  · intro i j v
    have hset : ∀ id, id < S.length
        → (set_value (copy_list_array S a).2 (copy_list_array S a).1 j v).getD
            id [] = S.getD id [] := by
      intro id hid
      unfold set_value
      rw [getD_set_ne]
      · exact hframe id hid
      · show (copy_list_array S a).1.proxy.values_id ≠ id
        simp only [copy_list_array, copy_proxy]
        omega
    exact hobs _ (hset _ hv) (hset _ hval) (hset _ (hptr ▸ ho)) i

/-- Witness for C7: a concrete store with one validity buffer, one offsets
buffer and one values buffer; after copying, clearing validity word 0 through
the copy leaves element 0 of the original unchanged. -/
theorem list_array_copy_independent_witness :
    observe_element
        (set_validity
          (copy_list_array [[1], [0, 2], [10, 20]] ⟨⟨0, 1, 2, 1⟩, 1⟩).2
          (copy_list_array [[1], [0, 2], [10, 20]] ⟨⟨0, 1, 2, 1⟩, 1⟩).1 0 0)
        ⟨⟨0, 1, 2, 1⟩, 1⟩ 0
      = observe_element [[1], [0, 2], [10, 20]] ⟨⟨0, 1, 2, 1⟩, 1⟩ 0 := by
  exact (list_array_copy_independent [[1], [0, 2], [10, 20]] ⟨⟨0, 1, 2, 1⟩, 1⟩
    (by unfold wf_mem; simp)).2.2.1 0 0 0

end sparrow
